import Mathlib

/-
Verification of the smooth-displacement pipeline (src/displacement.py).

The script deforms a point cloud by blending, per point, the affine handle
transforms of a set of anchor objects.  Geometry is exact: Python floats are
modelled as real numbers, mathutils vectors as triples of reals, and the one
Python exception reachable in the modelled core (float division by zero in the
fraction computation) as an explicit error value.
-/

/-- Triple of reals modelling a mathutils Vector (3D). -/
structure Vec3 where
  x : ℝ
  y : ℝ
  z : ℝ

instance : Inhabited Vec3 := ⟨⟨0, 0, 0⟩⟩

instance : Add Vec3 := ⟨fun a b => ⟨a.x + b.x, a.y + b.y, a.z + b.z⟩⟩

instance : Sub Vec3 := ⟨fun a b => ⟨a.x - b.x, a.y - b.y, a.z - b.z⟩⟩

instance : Neg Vec3 := ⟨fun a => ⟨-a.x, -a.y, -a.z⟩⟩

instance : SMul ℝ Vec3 := ⟨fun r a => ⟨r * a.x, r * a.y, r * a.z⟩⟩

/-- Dot product of two vectors (mathutils Vector.dot). -/
def Vec3.dot (a b : Vec3) : ℝ := a.x * b.x + a.y * b.y + a.z * b.z

/-- Cross product, used to build the inverse of a 3x3 linear map. -/
def Vec3.cross (a b : Vec3) : Vec3 :=
  ⟨a.y * b.z - a.z * b.y, a.z * b.x - a.x * b.z, a.x * b.y - a.y * b.x⟩

/-- Euclidean length (mathutils Vector.length). -/
noncomputable def Vec3.length (v : Vec3) : ℝ := Real.sqrt (v.dot v)

/-- Embeds mathutils Vector.normalized: the vector scaled to unit length, and
the zero vector when the length is zero (mathutils returns a zero vector there,
it does not raise). -/
noncomputable def Vec3.normalized (v : Vec3) : Vec3 :=
  if v.length = 0 then ⟨0, 0, 0⟩ else (1 / v.length) • v

/-- Affine map on 3D space: linear part given by the images of the three basis
vectors (columns), plus a translation.  Models a Blender matrix_world. -/
structure Affine3 where
  c1 : Vec3
  c2 : Vec3
  c3 : Vec3
  t : Vec3

/-- Application of an affine map to a point. -/
def Affine3.apply (m : Affine3) (v : Vec3) : Vec3 :=
  v.x • m.c1 + v.y • m.c2 + v.z • m.c3 + m.t

/-- Identity transform. -/
def Affine3.idT : Affine3 := ⟨⟨1, 0, 0⟩, ⟨0, 1, 0⟩, ⟨0, 0, 1⟩, ⟨0, 0, 0⟩⟩

/-- Pure translation. -/
def Affine3.translate (t : Vec3) : Affine3 := ⟨⟨1, 0, 0⟩, ⟨0, 1, 0⟩, ⟨0, 0, 1⟩, t⟩

/-- Determinant of the linear part. -/
def Affine3.det (m : Affine3) : ℝ := m.c1.dot (m.c2.cross m.c3)

/-- Embeds mathutils Matrix.inverted via the adjugate formula: the rows of the
inverse linear part are the cross products of pairs of columns divided by the
determinant, and the translation is mapped through the inverse linear part and
negated.  The claims below only ever invert invertible transforms. -/
noncomputable def Affine3.inverted (m : Affine3) : Affine3 :=
  let d := m.det
  let r1 := (1 / d) • (m.c2.cross m.c3)
  let r2 := (1 / d) • (m.c3.cross m.c1)
  let r3 := (1 / d) • (m.c1.cross m.c2)
  let i1 : Vec3 := ⟨r1.x, r2.x, r3.x⟩
  let i2 : Vec3 := ⟨r1.y, r2.y, r3.y⟩
  let i3 : Vec3 := ⟨r1.z, r2.z, r3.z⟩
  ⟨i1, i2, i3, -(Affine3.apply ⟨i1, i2, i3, ⟨0, 0, 0⟩⟩ m.t)⟩

/-- Embeds smooth_function (src/displacement.py lines 26-31). -/
noncomputable def smooth_function (fraction : ℝ) : ℝ :=
  if fraction ≤ 0 then 0
  else if 1 ≤ fraction then 1
  else 3 * fraction * fraction - 2 * fraction * fraction * fraction

/-- The one Python exception reachable in the modelled core: float division by
zero in the fraction computation (line 92). -/
inductive PyErr where
  | zeroDivision
deriving DecidableEq

/-- Anchor object: its location, its world matrix, and the world matrix of its
first child (the handle, anchor.children[0] in line 108). -/
structure Anchor where
  location : Vec3
  matrixWorld : Affine3
  handleMatrixWorld : Affine3

instance : Inhabited Anchor :=
  ⟨⟨⟨0, 0, 0⟩, Affine3.idT, Affine3.idT⟩⟩

/-- Location of the anchor at index j of the anchor list. -/
def anchorLoc (A : List Anchor) (j : ℕ) : Vec3 := (A.getD j default).location

/-- Embeds the exclusion test of the membership loop (lines 72-79): the point
is on the far side of the half-space plane through the second anchor when its
dot product with the normalized delta exceeds the outer threshold. -/
def excludes (pw ci cj : Vec3) : Prop :=
  pw.dot ((cj - ci).normalized) > cj.dot ((cj - ci).normalized)

/-- Embeds the in_cell result of the membership loop (lines 65-79): the point
survives the exclusion test against every other anchor index. -/
def inCell (A : List Anchor) (pw : Vec3) (i : ℕ) : Prop :=
  ∀ j, j < A.length → j ≠ i → ¬ excludes pw (anchorLoc A i) (anchorLoc A j)

open scoped Classical

/-- Embeds the fraction computation of the boundary loop (lines 87-92).
Python raises ZeroDivisionError when the float denominator is zero. -/
noncomputable def fractionCalc (pw ci cj : Vec3) : Except PyErr ℝ :=
  let n := (cj - ci).normalized
  let inner := ci.dot n
  let outer := cj.dot n
  if outer - inner = 0 then Except.error PyErr.zeroDivision
  else Except.ok ((pw.dot n - inner) / (outer - inner))

/-- Embeds the boundary loop (lines 84-95): starting from weight 1, multiply
one factor 1 - smooth_function(fraction) per neighbor index, in list order;
the first zero denominator aborts with ZeroDivisionError. -/
noncomputable def boundaryProduct (A : List Anchor) (pw ci : Vec3) :
    List ℕ → Except PyErr ℝ
  | [] => Except.ok 1
  | j :: rest =>
    match fractionCalc pw ci (anchorLoc A j) with
    | Except.error e => Except.error e
    | Except.ok f =>
      match boundaryProduct A pw ci rest with
      | Except.error e => Except.error e
      | Except.ok w => Except.ok ((1 - smooth_function f) * w)

/-- Raw influence coefficient of one anchor (lines 62-97): 0 when the point
fails the membership test, otherwise the boundary product over the neighbors
of that anchor. -/
noncomputable def rawCoeff (A : List Anchor) (nb : ℕ → List ℕ) (pw : Vec3)
    (i : ℕ) : Except PyErr ℝ :=
  if inCell A pw i then boundaryProduct A pw (anchorLoc A i) (nb i)
  else Except.ok 0

/-- Raw influence coefficients over a list of anchor indices, in order. -/
noncomputable def computeRawCoeffs (A : List Anchor) (nb : ℕ → List ℕ)
    (pw : Vec3) : List ℕ → Except PyErr (List ℝ)
  | [] => Except.ok []
  | i :: rest =>
    match rawCoeff A nb pw i with
    | Except.error e => Except.error e
    | Except.ok c =>
      match computeRawCoeffs A nb pw rest with
      | Except.error e => Except.error e
      | Except.ok cs => Except.ok (c :: cs)

/-- Embeds the normalization step (lines 99-102): divide every coefficient by
the sum when the sum is nonzero, else leave the list unchanged. -/
noncomputable def normalizeCoeffs (cs : List ℝ) : List ℝ :=
  if cs.sum ≠ 0 then cs.map (fun c => c / cs.sum) else cs

/-- Embeds the displacement accumulation (lines 104-113): the sum, over the
anchor indices, of the coefficient times the handle world matrix applied to
the point mapped into the anchor local frame. -/
noncomputable def blendSum (A : List Anchor) (M : Affine3) (p : Vec3)
    (coeffs : List ℝ) : List ℕ → Vec3
  | [] => ⟨0, 0, 0⟩
  | i :: rest =>
    coeffs.getD i 0 •
        (A.getD i default).handleMatrixWorld.apply
          ((A.getD i default).matrixWorld.inverted.apply (M.apply p)) +
      blendSum A M p coeffs rest

/-- Full per-point computation (lines 59-115): raw coefficients over every
anchor index, normalization, displacement accumulation, and the final write
back through the inverted cloud matrix (matrix_cloud_to_world, line 38). -/
noncomputable def displacePoint (A : List Anchor) (nb : ℕ → List ℕ)
    (M : Affine3) (p : Vec3) : Except PyErr Vec3 :=
  match computeRawCoeffs A nb (M.apply p) (List.range A.length) with
  | Except.error e => Except.error e
  | Except.ok raw =>
    Except.ok
      (M.inverted.apply (blendSum A M p (normalizeCoeffs raw) (List.range A.length)))

/-- Embeds the complete-graph fallback (lines 52-56): list(range(n)) with the
entry at position k removed. -/
def completeNeighbors (n k : ℕ) : List ℕ := (List.range n).eraseIdx k

/-- Embeds the neighbor construction (lines 45-56).  The Delaunay branch
(n at least 5) delegates to scipy, an external library, modelled as an opaque
assignment passed in by the caller. -/
def buildNeighbors (delaunay : ℕ → List ℕ) (n : ℕ) : ℕ → List ℕ :=
  if 5 ≤ n then delaunay else fun k => completeNeighbors n k

/-- The point loop (lines 59-115) over a list of points, in order; the first
exception aborts the whole batch, as in Python. -/
noncomputable def processPoints (A : List Anchor) (nb : ℕ → List ℕ)
    (M : Affine3) : List Vec3 → Except PyErr (List Vec3)
  | [] => Except.ok []
  | p :: ps =>
    match displacePoint A nb M p with
    | Except.error e => Except.error e
    | Except.ok q =>
      match processPoints A nb M ps with
      | Except.error e => Except.error e
      | Except.ok qs => Except.ok (q :: qs)

/-- Whole pipeline: build the neighbor assignment once, then run the point
loop. -/
noncomputable def runPipeline (delaunay : ℕ → List ℕ) (A : List Anchor)
    (M : Affine3) (points : List Vec3) : Except PyErr (List Vec3) :=
  processPoints A (buildNeighbors delaunay A.length) M points

/-- First anchor of the two-anchor test scenario of the spec: at the origin,
world matrix the corresponding translation, handle translated by (0,1,0). -/
def anchorA : Anchor :=
  ⟨⟨0, 0, 0⟩, Affine3.translate ⟨0, 0, 0⟩, Affine3.translate ⟨0, 1, 0⟩⟩

/-- Second anchor of the two-anchor test scenario: at (2,0,0), world matrix the
corresponding translation, handle additionally translated by (0,-1,0). -/
def anchorB : Anchor :=
  ⟨⟨2, 0, 0⟩, Affine3.translate ⟨2, 0, 0⟩, Affine3.translate ⟨2, -1, 0⟩⟩

/-- The two-anchor scenario anchor list. -/
def twoAnchors : List Anchor := [anchorA, anchorB]

/-- Neighbor assignment the pipeline builds for two anchors (complete graph,
since 2 is below the Delaunay minimum of 5). -/
def twoNb : ℕ → List ℕ := buildNeighbors (fun _ => []) 2

/-- Anchor at the origin with identity matrices, used twice to build a pair of
coincident anchors. -/
def coincAnchor : Anchor := ⟨⟨0, 0, 0⟩, Affine3.idT, Affine3.idT⟩

/-- Two coincident anchors, for the degenerate-geometry claims. -/
def coincidentAnchors : List Anchor := [coincAnchor, coincAnchor]

/-- Projection of the vector addition. -/
theorem Vec3.add_def (a b : Vec3) :
    a + b = ⟨a.x + b.x, a.y + b.y, a.z + b.z⟩ := rfl

/-- Projection of the vector subtraction. -/
theorem Vec3.sub_def (a b : Vec3) :
    a - b = ⟨a.x - b.x, a.y - b.y, a.z - b.z⟩ := rfl

/-- Projection of the vector negation. -/
theorem Vec3.neg_def (a : Vec3) : -a = ⟨-a.x, -a.y, -a.z⟩ := rfl

/-- Projection of the scalar multiplication. -/
theorem Vec3.smul_def (r : ℝ) (a : Vec3) :
    r • a = ⟨r * a.x, r * a.y, r * a.z⟩ := rfl

/-- Evaluation of smooth_function on the nonpositive branch. -/
theorem smooth_of_nonpos {f : ℝ} (h : f ≤ 0) : smooth_function f = 0 := by
  unfold smooth_function
  rw [if_pos h]

/-- Evaluation of smooth_function on the branch at or above one. -/
theorem smooth_of_one_le {f : ℝ} (h : 1 ≤ f) : smooth_function f = 1 := by
  unfold smooth_function
  rw [if_neg (by linarith), if_pos h]

/-- Evaluation of smooth_function on the interior branch. -/
theorem smooth_of_interior {f : ℝ} (h1 : 0 < f) (h2 : f < 1) :
    smooth_function f = 3 * f * f - 2 * f * f * f := by
  unfold smooth_function
  rw [if_neg (by linarith), if_neg (by linarith)]

/-- The blending curve never goes below zero. -/
theorem smooth_nonneg (f : ℝ) : 0 ≤ smooth_function f := by
  rcases le_or_lt f 0 with h | h
  · rw [smooth_of_nonpos h]
  rcases le_or_lt 1 f with h1 | h1
  · rw [smooth_of_one_le h1]; norm_num
  · rw [smooth_of_interior h h1]
    nlinarith [mul_nonneg (mul_nonneg h.le h.le) (by linarith : (0:ℝ) ≤ 3 - 2 * f)]

/-- The blending curve never exceeds one. -/
theorem smooth_le_one (f : ℝ) : smooth_function f ≤ 1 := by
  rcases le_or_lt f 0 with h | h
  · rw [smooth_of_nonpos h]; norm_num
  rcases le_or_lt 1 f with h1 | h1
  · rw [smooth_of_one_le h1]
  · rw [smooth_of_interior h h1]
    nlinarith [mul_nonneg (mul_nonneg (by linarith : (0:ℝ) ≤ 1 - f)
      (by linarith : (0:ℝ) ≤ 1 - f)) (by linarith : (0:ℝ) ≤ 1 + 2 * f)]

/-- The blending curve is monotone. -/
theorem smooth_mono {f g : ℝ} (h : f ≤ g) :
    smooth_function f ≤ smooth_function g := by
  rcases le_or_lt f 0 with hf | hf
  · rw [smooth_of_nonpos hf]; exact smooth_nonneg g
  rcases le_or_lt 1 g with hg | hg
  · rw [smooth_of_one_le hg]; exact smooth_le_one f
  have hg0 : 0 < g := lt_of_lt_of_le hf h
  have hf1 : f < 1 := lt_of_le_of_lt h hg
  rw [smooth_of_interior hf hf1, smooth_of_interior hg0 hg]
  nlinarith [mul_nonneg (mul_nonneg (sub_nonneg.mpr h) hg0.le)
      (by linarith : (0:ℝ) ≤ 1 - g),
    mul_nonneg (mul_nonneg (sub_nonneg.mpr h) hf.le)
      (by linarith : (0:ℝ) ≤ 1 - f),
    mul_nonneg (mul_nonneg (sub_nonneg.mpr h) hg0.le)
      (by linarith : (0:ℝ) ≤ 1 - f),
    mul_nonneg (mul_nonneg (sub_nonneg.mpr h) hf.le)
      (by linarith : (0:ℝ) ≤ 1 - g)]

/-- The blending curve is symmetric about one half on the unit interval. -/
theorem smooth_symm {f : ℝ} (h0 : 0 ≤ f) (h1 : f ≤ 1) :
    smooth_function (1 - f) = 1 - smooth_function f := by
  rcases eq_or_lt_of_le h0 with h | h
  · rw [← h, show (1:ℝ) - 0 = 1 by norm_num, smooth_of_one_le le_rfl,
      smooth_of_nonpos le_rfl]
    norm_num
  rcases eq_or_lt_of_le h1 with h1e | h1l
  · rw [h1e, show (1:ℝ) - 1 = 0 by norm_num, smooth_of_nonpos le_rfl,
      smooth_of_one_le le_rfl]
    norm_num
  · rw [smooth_of_interior (by linarith) (by linarith),
      smooth_of_interior h h1l]
    ring

/-- C6: smooth_function returns 0 for every fraction at most 0, returns 1 for
every fraction at least 1, returns the cubic 3 f ^ 2 - 2 f ^ 3 strictly
between, and its result always lies in the unit interval. -/
theorem c6_smooth_function_contract (f : ℝ) :
    (f ≤ 0 → smooth_function f = 0) ∧
    (1 ≤ f → smooth_function f = 1) ∧
    (0 < f → f < 1 → smooth_function f = 3 * f * f - 2 * f * f * f) ∧
    (0 ≤ smooth_function f ∧ smooth_function f ≤ 1) :=
  ⟨fun h => smooth_of_nonpos h, fun h => smooth_of_one_le h,
   fun h1 h2 => smooth_of_interior h1 h2,
   ⟨smooth_nonneg f, smooth_le_one f⟩⟩

/-- Witness for C6 at the concrete inputs -1, 2 and one half. -/
theorem c6_smooth_function_contract_witness :
    smooth_function (-1) = 0 ∧ smooth_function 2 = 1 ∧
    smooth_function (1 / 2) =
      3 * (1 / 2) * (1 / 2) - 2 * (1 / 2) * (1 / 2) * (1 / 2) ∧
    (0 ≤ smooth_function (1 / 2) ∧ smooth_function (1 / 2) ≤ 1) :=
  ⟨(c6_smooth_function_contract (-1)).1 (by norm_num),
   (c6_smooth_function_contract 2).2.1 (by norm_num),
   (c6_smooth_function_contract (1 / 2)).2.2.1 (by norm_num) (by norm_num),
   (c6_smooth_function_contract (1 / 2)).2.2.2⟩

/-- C9: smooth_function fixes 0, 1 and one half, is monotonically
non-decreasing, and is symmetric on the unit interval. -/
theorem c9_smooth_function_algebra (f g : ℝ) :
    smooth_function 0 = 0 ∧ smooth_function 1 = 1 ∧
    smooth_function (1 / 2) = 1 / 2 ∧
    (f ≤ g → smooth_function f ≤ smooth_function g) ∧
    (0 ≤ f → f ≤ 1 → smooth_function (1 - f) = 1 - smooth_function f) :=
  ⟨smooth_of_nonpos le_rfl, smooth_of_one_le le_rfl,
   by rw [smooth_of_interior (by norm_num) (by norm_num)]; norm_num,
   fun h => smooth_mono h, fun h0 h1 => smooth_symm h0 h1⟩

/-- Witness for C9 at one quarter and three quarters. -/
theorem c9_smooth_function_algebra_witness :
    smooth_function 0 = 0 ∧ smooth_function 1 = 1 ∧
    smooth_function (1 / 2) = 1 / 2 ∧
    smooth_function (1 / 4) ≤ smooth_function (3 / 4) ∧
    smooth_function (1 - 1 / 4) = 1 - smooth_function (1 / 4) := by
  have h := c9_smooth_function_algebra (1 / 4) (3 / 4)
  exact ⟨h.1, h.2.1, h.2.2.1, h.2.2.2.1 (by norm_num),
    h.2.2.2.2 (by norm_num) (by norm_num)⟩

/-- Square root of four. -/
theorem sqrt_four : Real.sqrt 4 = 2 := by
  rw [show (4:ℝ) = 2 ^ 2 by norm_num]
  exact Real.sqrt_sq (by norm_num)

/-- Length of the delta vector of the two-anchor scenario. -/
theorem length_two_x : Vec3.length ⟨2, 0, 0⟩ = 2 := by
  unfold Vec3.length Vec3.dot
  norm_num [sqrt_four]

/-- Length of the opposite delta vector of the two-anchor scenario. -/
theorem length_neg_two_x : Vec3.length ⟨-2, 0, 0⟩ = 2 := by
  unfold Vec3.length Vec3.dot
  norm_num [sqrt_four]

/-- Normalization of the delta vector of the two-anchor scenario. -/
theorem normalized_two_x : Vec3.normalized ⟨2, 0, 0⟩ = ⟨1, 0, 0⟩ := by
  unfold Vec3.normalized
  rw [length_two_x, if_neg (by norm_num : (2:ℝ) ≠ 0), Vec3.smul_def]
  norm_num

/-- Normalization of the opposite delta vector. -/
theorem normalized_neg_two_x : Vec3.normalized ⟨-2, 0, 0⟩ = ⟨-1, 0, 0⟩ := by
  unfold Vec3.normalized
  rw [length_neg_two_x, if_neg (by norm_num : (2:ℝ) ≠ 0), Vec3.smul_def]
  norm_num

/-- Normalization of the zero vector returns the zero vector, as mathutils
does; no error is signalled. -/
theorem normalized_zero : Vec3.normalized ⟨0, 0, 0⟩ = ⟨0, 0, 0⟩ := by
  unfold Vec3.normalized Vec3.length Vec3.dot
  norm_num

/-- Application of a pure translation. -/
theorem Affine3.translate_apply (t v : Vec3) :
    (Affine3.translate t).apply v = v + t := by
  simp only [Affine3.translate, Affine3.apply, Vec3.smul_def, Vec3.add_def,
    Vec3.mk.injEq]
  refine ⟨by ring, by ring, by ring⟩

/-- Inversion of a pure translation. -/
theorem Affine3.inverted_translate (t : Vec3) :
    (Affine3.translate t).inverted = Affine3.translate (-t) := by
  simp only [Affine3.inverted, Affine3.translate, Affine3.det, Vec3.dot,
    Vec3.cross, Affine3.apply, Vec3.smul_def, Vec3.add_def, Vec3.neg_def,
    Vec3.mk.injEq]
  norm_num

/-- Application of the identity transform. -/
theorem Affine3.idT_apply (v : Vec3) : Affine3.idT.apply v = v := by
  cases v with
  | mk a b c =>
    simp only [Affine3.idT, Affine3.apply, Vec3.smul_def, Vec3.add_def,
      Vec3.mk.injEq]
    refine ⟨by ring, by ring, by ring⟩

/-- Inversion of the identity transform. -/
theorem Affine3.inverted_idT : Affine3.idT.inverted = Affine3.idT := by
  simp only [Affine3.inverted, Affine3.idT, Affine3.det, Vec3.dot, Vec3.cross,
    Affine3.apply, Vec3.smul_def, Vec3.add_def, Vec3.neg_def, Vec3.mk.injEq]
  norm_num

/-- Interior value of the blending curve at one half. -/
theorem smooth_half : smooth_function (1 / 2) = 1 / 2 := by
  rw [smooth_of_interior (by norm_num) (by norm_num)]
  norm_num

/-- Neighbor list of the first anchor in the two-anchor scenario. -/
theorem twoNb_zero : twoNb 0 = [1] := rfl

/-- Neighbor list of the second anchor in the two-anchor scenario. -/
theorem twoNb_one : twoNb 1 = [0] := rfl

/-- Location of the first scenario anchor. -/
theorem anchorLoc_two_0 : anchorLoc twoAnchors 0 = ⟨0, 0, 0⟩ := rfl

/-- Location of the second scenario anchor. -/
theorem anchorLoc_two_1 : anchorLoc twoAnchors 1 = ⟨2, 0, 0⟩ := rfl

/-- The midpoint passes the membership test of the first anchor. -/
theorem inCell_two_mid_0 : inCell twoAnchors ⟨1, 0, 0⟩ 0 := by
  intro j hj hne
  have hj2 : j < 2 := hj
  interval_cases j
  · exact absurd rfl hne
  · rw [anchorLoc_two_0, anchorLoc_two_1]
    unfold excludes
    rw [show (⟨2, 0, 0⟩ : Vec3) - ⟨0, 0, 0⟩ = ⟨2, 0, 0⟩ by
      rw [Vec3.sub_def]; norm_num]
    rw [normalized_two_x]
    unfold Vec3.dot
    norm_num

/-- The midpoint passes the membership test of the second anchor. -/
theorem inCell_two_mid_1 : inCell twoAnchors ⟨1, 0, 0⟩ 1 := by
  intro j hj hne
  have hj2 : j < 2 := hj
  interval_cases j
  · rw [anchorLoc_two_0, anchorLoc_two_1]
    unfold excludes
    rw [show (⟨0, 0, 0⟩ : Vec3) - ⟨2, 0, 0⟩ = ⟨-2, 0, 0⟩ by
      rw [Vec3.sub_def]; norm_num]
    rw [normalized_neg_two_x]
    unfold Vec3.dot
    norm_num
  · exact absurd rfl hne

/-- Fraction of the midpoint against the boundary seen from the first anchor. -/
theorem frac_two_mid_0 :
    fractionCalc ⟨1, 0, 0⟩ ⟨0, 0, 0⟩ ⟨2, 0, 0⟩ = Except.ok (1 / 2) := by
  have hsub : (⟨2, 0, 0⟩ : Vec3) - ⟨0, 0, 0⟩ = ⟨2, 0, 0⟩ := by
    rw [Vec3.sub_def]; norm_num
  simp only [fractionCalc, hsub, normalized_two_x, Vec3.dot]
  norm_num

/-- Fraction of the midpoint against the boundary seen from the second
anchor. -/
theorem frac_two_mid_1 :
    fractionCalc ⟨1, 0, 0⟩ ⟨2, 0, 0⟩ ⟨0, 0, 0⟩ = Except.ok (1 / 2) := by
  have hsub : (⟨0, 0, 0⟩ : Vec3) - ⟨2, 0, 0⟩ = ⟨-2, 0, 0⟩ := by
    rw [Vec3.sub_def]; norm_num
  simp only [fractionCalc, hsub, normalized_neg_two_x, Vec3.dot]
  norm_num

/-- Boundary product of the first anchor at the midpoint. -/
theorem bp_two_mid_0 :
    boundaryProduct twoAnchors ⟨1, 0, 0⟩ ⟨0, 0, 0⟩ [1] = Except.ok (1 / 2) := by
  simp only [boundaryProduct, anchorLoc_two_1, frac_two_mid_0, smooth_half]
  norm_num

/-- Boundary product of the second anchor at the midpoint. -/
theorem bp_two_mid_1 :
    boundaryProduct twoAnchors ⟨1, 0, 0⟩ ⟨2, 0, 0⟩ [0] = Except.ok (1 / 2) := by
  simp only [boundaryProduct, anchorLoc_two_0, frac_two_mid_1, smooth_half]
  norm_num

/-- Raw coefficient of the first anchor at the midpoint. -/
theorem raw_two_mid_0 :
    rawCoeff twoAnchors twoNb ⟨1, 0, 0⟩ 0 = Except.ok (1 / 2) := by
  unfold rawCoeff
  rw [if_pos inCell_two_mid_0, twoNb_zero, anchorLoc_two_0]
  exact bp_two_mid_0

/-- Raw coefficient of the second anchor at the midpoint. -/
theorem raw_two_mid_1 :
    rawCoeff twoAnchors twoNb ⟨1, 0, 0⟩ 1 = Except.ok (1 / 2) := by
  unfold rawCoeff
  rw [if_pos inCell_two_mid_1, twoNb_one, anchorLoc_two_1]
  exact bp_two_mid_1

/-- Raw coefficient list of the midpoint in the two-anchor scenario. -/
theorem rawList_two_mid :
    computeRawCoeffs twoAnchors twoNb ⟨1, 0, 0⟩ (List.range twoAnchors.length)
      = Except.ok [1 / 2, 1 / 2] := by
  rw [show List.range twoAnchors.length = [0, 1] from rfl]
  simp only [computeRawCoeffs, raw_two_mid_0, raw_two_mid_1]

/-- Normalization of the half-half coefficient list. -/
theorem norm_two_mid :
    normalizeCoeffs [1 / 2, 1 / 2] = ([1 / 2, 1 / 2] : List ℝ) := by
  have hsum : ([1 / 2, 1 / 2] : List ℝ).sum = 1 := by
    simp [List.sum_cons, List.sum_nil]
    norm_num
  unfold normalizeCoeffs
  rw [hsum, if_pos (by norm_num : (1:ℝ) ≠ 0)]
  simp only [List.map_cons, List.map_nil]
  norm_num

/-- Candidate displaced position supplied by the first anchor. -/
theorem cand_two_A :
    anchorA.handleMatrixWorld.apply
      (anchorA.matrixWorld.inverted.apply (Affine3.idT.apply ⟨1, 0, 0⟩))
      = ⟨1, 1, 0⟩ := by
  show (Affine3.translate ⟨0, 1, 0⟩).apply
    ((Affine3.translate ⟨0, 0, 0⟩).inverted.apply (Affine3.idT.apply ⟨1, 0, 0⟩))
    = ⟨1, 1, 0⟩
  rw [Affine3.idT_apply, Affine3.inverted_translate, Affine3.translate_apply,
    Affine3.translate_apply, Vec3.neg_def, Vec3.add_def, Vec3.add_def]
  norm_num

/-- Candidate displaced position supplied by the second anchor. -/
theorem cand_two_B :
    anchorB.handleMatrixWorld.apply
      (anchorB.matrixWorld.inverted.apply (Affine3.idT.apply ⟨1, 0, 0⟩))
      = ⟨1, -1, 0⟩ := by
  show (Affine3.translate ⟨2, -1, 0⟩).apply
    ((Affine3.translate ⟨2, 0, 0⟩).inverted.apply (Affine3.idT.apply ⟨1, 0, 0⟩))
    = ⟨1, -1, 0⟩
  rw [Affine3.idT_apply, Affine3.inverted_translate, Affine3.translate_apply,
    Affine3.translate_apply, Vec3.neg_def, Vec3.add_def, Vec3.add_def]
  norm_num

/-- Blended displacement of the midpoint. -/
theorem blend_two_mid :
    blendSum twoAnchors Affine3.idT ⟨1, 0, 0⟩ [1 / 2, 1 / 2]
      (List.range twoAnchors.length) = ⟨1, 0, 0⟩ := by
  rw [show List.range twoAnchors.length = [0, 1] from rfl]
  simp only [blendSum, twoAnchors, List.getD_cons_zero, List.getD_cons_succ]
  rw [cand_two_A, cand_two_B, Vec3.smul_def, Vec3.smul_def, Vec3.add_def,
    Vec3.add_def]
  norm_num

/-- Final output of the pipeline for the midpoint. -/
theorem displace_two_mid :
    displacePoint twoAnchors twoNb Affine3.idT ⟨1, 0, 0⟩
      = Except.ok ⟨1, 0, 0⟩ := by
  unfold displacePoint
  rw [Affine3.idT_apply, rawList_two_mid]
  simp only [norm_two_mid, Affine3.inverted_idT, blend_two_mid,
    Affine3.idT_apply]

/-- C3: in the two-anchor scenario, the query point at the exact midplane
passes both membership tests, has fraction one half against each boundary,
raw weight one half per anchor, normalized influence one half each, and the
output position is exactly the input position. -/
theorem c3_two_anchor_midpoint :
    inCell twoAnchors ⟨1, 0, 0⟩ 0 ∧ inCell twoAnchors ⟨1, 0, 0⟩ 1 ∧
    fractionCalc ⟨1, 0, 0⟩ (anchorLoc twoAnchors 0) (anchorLoc twoAnchors 1)
      = Except.ok (1 / 2) ∧
    fractionCalc ⟨1, 0, 0⟩ (anchorLoc twoAnchors 1) (anchorLoc twoAnchors 0)
      = Except.ok (1 / 2) ∧
    1 - smooth_function (1 / 2) = 1 / 2 ∧
    computeRawCoeffs twoAnchors twoNb ⟨1, 0, 0⟩ (List.range twoAnchors.length)
      = Except.ok [1 / 2, 1 / 2] ∧
    normalizeCoeffs [1 / 2, 1 / 2] = ([1 / 2, 1 / 2] : List ℝ) ∧
    displacePoint twoAnchors twoNb Affine3.idT ⟨1, 0, 0⟩
      = Except.ok ⟨1, 0, 0⟩ :=
  ⟨inCell_two_mid_0, inCell_two_mid_1,
   by rw [anchorLoc_two_0, anchorLoc_two_1]; exact frac_two_mid_0,
   by rw [anchorLoc_two_0, anchorLoc_two_1]; exact frac_two_mid_1,
   by rw [smooth_half]; norm_num,
   rawList_two_mid, norm_two_mid, displace_two_mid⟩

/-- Subtraction of a vector from itself gives the zero vector. -/
theorem Vec3.sub_self (v : Vec3) : v - v = ⟨0, 0, 0⟩ := by
  rw [Vec3.sub_def]
  norm_num

/-- Dot product with the zero vector on the right. -/
theorem Vec3.dot_zero_right (v : Vec3) : v.dot ⟨0, 0, 0⟩ = 0 := by
  unfold Vec3.dot
  norm_num

/-- Scaling by one is the identity. -/
theorem Vec3.one_smul_eq (v : Vec3) : (1 : ℝ) • v = v := by
  cases v with
  | mk a b c => rw [Vec3.smul_def]; norm_num

/-- Scaling by zero gives the zero vector. -/
theorem Vec3.zero_smul_eq (v : Vec3) : (0 : ℝ) • v = ⟨0, 0, 0⟩ := by
  rw [Vec3.smul_def]
  norm_num

/-- Adding the zero vector on the right is the identity. -/
theorem Vec3.add_zero_eq (v : Vec3) : v + ⟨0, 0, 0⟩ = v := by
  cases v with
  | mk a b c => rw [Vec3.add_def]; norm_num

/-- Adding the zero vector on the left is the identity. -/
theorem Vec3.zero_add_eq (v : Vec3) : (⟨0, 0, 0⟩ : Vec3) + v = v := by
  cases v with
  | mk a b c => rw [Vec3.add_def]; norm_num

/-- Membership in the complete-graph fallback list: erasing position k from
the range list leaves exactly the other indices below n. -/
theorem mem_completeNeighbors (n k j : ℕ) :
    j ∈ completeNeighbors n k ↔ (j < n ∧ j ≠ k) := by
  unfold completeNeighbors
  rw [List.mem_eraseIdx_iff_getElem]
  constructor
  · rintro ⟨i, hlt, hne, rfl⟩
    simp only [List.length_range] at hlt
    simp only [List.getElem_range]
    exact ⟨hlt, hne⟩
  · rintro ⟨hj, hne⟩
    refine ⟨j, ?_, hne, ?_⟩
    · simpa [List.length_range] using hj
    · simp [List.getElem_range]

/-- C7: for fewer than 5 anchors the neighbor builder takes the complete-graph
branch, and every anchor gets as neighbors exactly the other anchor indices. -/
theorem c7_complete_graph_fallback (d : ℕ → List ℕ) (n k : ℕ)
    (hn : n < 5) (hk : k < n) :
    ∀ j, j ∈ buildNeighbors d n k ↔ (j < n ∧ j ≠ k) := by
  intro j
  unfold buildNeighbors
  rw [if_neg (by omega)]
  exact mem_completeNeighbors n k j

/-- Witness for C7 with three anchors and the middle index. -/
theorem c7_complete_graph_fallback_witness :
    (0 ∈ buildNeighbors (fun _ => []) 3 1 ↔ (0 < 3 ∧ 0 ≠ 1)) ∧
    (1 ∈ buildNeighbors (fun _ => []) 3 1 ↔ (1 < 3 ∧ 1 ≠ 1)) ∧
    (2 ∈ buildNeighbors (fun _ => []) 3 1 ↔ (2 < 3 ∧ 2 ≠ 1)) :=
  ⟨c7_complete_graph_fallback (fun _ => []) 3 1 (by norm_num) (by norm_num) 0,
   c7_complete_graph_fallback (fun _ => []) 3 1 (by norm_num) (by norm_num) 1,
   c7_complete_graph_fallback (fun _ => []) 3 1 (by norm_num) (by norm_num) 2⟩

/-- C10: cell membership is boundary-inclusive.  A query point whose dot
product with the boundary normal equals the outer threshold exactly is not
excluded, so when every other pair also passes, the point is still classified
inside the cell; and exclusion holds exactly when the dot product is strictly
greater than the threshold. -/
theorem c10_boundary_inclusive (A : List Anchor) (pw : Vec3) (i j : ℕ)
    (hj : j < A.length) (hne : j ≠ i)
    (heq : pw.dot ((anchorLoc A j - anchorLoc A i).normalized)
      = (anchorLoc A j).dot ((anchorLoc A j - anchorLoc A i).normalized))
    (hothers : ∀ k, k < A.length → k ≠ i → k ≠ j →
      ¬ excludes pw (anchorLoc A i) (anchorLoc A k)) :
    inCell A pw i ∧
    (∀ q ci cj : Vec3, ¬ excludes q ci cj ↔
      q.dot ((cj - ci).normalized) ≤ cj.dot ((cj - ci).normalized)) := by
  constructor
  · intro k hk hki
    by_cases hkj : k = j
    · subst hkj
      unfold excludes
      rw [heq]
      exact lt_irrefl _
    · exact hothers k hk hki hkj
  · intro q ci cj
    unfold excludes
    exact not_lt

/-- Witness for C10: the point (2,5,0) lies exactly on the half-space plane
through the second anchor and is still inside the first anchor cell. -/
theorem c10_boundary_inclusive_witness :
    inCell twoAnchors ⟨2, 5, 0⟩ 0 ∧
    (∀ q ci cj : Vec3, ¬ excludes q ci cj ↔
      q.dot ((cj - ci).normalized) ≤ cj.dot ((cj - ci).normalized)) := by
  refine c10_boundary_inclusive twoAnchors ⟨2, 5, 0⟩ 0 1
    (by exact one_lt_two) (by norm_num) ?_ ?_
  · rw [anchorLoc_two_0, anchorLoc_two_1,
      show (⟨2, 0, 0⟩ : Vec3) - ⟨0, 0, 0⟩ = ⟨2, 0, 0⟩ by
        rw [Vec3.sub_def]; norm_num,
      normalized_two_x]
    unfold Vec3.dot
    norm_num
  · intro k hk hk0 hk1
    have hk2 : k < 2 := hk
    interval_cases k
    · exact absurd rfl hk0
    · exact absurd rfl hk1

/-- Neighbor list that the pipeline builds for the first of two anchors. -/
theorem buildNeighbors_two_zero (d : ℕ → List ℕ) :
    buildNeighbors d 2 0 = [1] := by
  unfold buildNeighbors
  rw [if_neg (by norm_num)]
  rfl

/-- C2 counterexample: with two coincident anchors, the half-space membership
step signals nothing — normalizing the zero delta vector yields the zero
vector and the exclusion test fails, so the point is classified in-cell — and
the boundary-softening step performs a division by zero, so the pipeline
produces a ZeroDivisionError; no DegenerateGeometryError is signalled at
either step (no such error exists in the code). -/
theorem c2_counterexample :
    Vec3.normalized (coincAnchor.location - coincAnchor.location) = ⟨0, 0, 0⟩ ∧
    inCell coincidentAnchors ⟨5, 7, 9⟩ 0 ∧
    fractionCalc ⟨5, 7, 9⟩ coincAnchor.location coincAnchor.location
      = Except.error PyErr.zeroDivision := by
  have hsub : coincAnchor.location - coincAnchor.location = ⟨0, 0, 0⟩ :=
    Vec3.sub_self _
  refine ⟨by rw [hsub, normalized_zero], ?_, ?_⟩
  · intro j hj hne
    have hj2 : j < 2 := hj
    interval_cases j
    · exact absurd rfl hne
    · show ¬ excludes ⟨5, 7, 9⟩ coincAnchor.location coincAnchor.location
      unfold excludes
      rw [hsub, normalized_zero, Vec3.dot_zero_right, Vec3.dot_zero_right]
      norm_num
  · simp only [fractionCalc, hsub, normalized_zero, Vec3.dot_zero_right]
    rw [if_pos (by norm_num : (0:ℝ) - 0 = 0)]

/-- C2 amended: when two anchors coincide, processing any point neither
signals an error in the membership step nor divides safely in the softening
step: the whole per-point computation ends in a ZeroDivisionError raised by
the fraction computation where outer equals inner. -/
theorem c2_coincident_anchors_zero_division (a b : Anchor) (M : Affine3)
    (p : Vec3) (d : ℕ → List ℕ) (h : b.location = a.location) :
    displacePoint [a, b] (buildNeighbors d 2) M p
      = Except.error PyErr.zeroDivision := by
  have hloc0 : anchorLoc [a, b] 0 = a.location := rfl
  have hloc1 : anchorLoc [a, b] 1 = b.location := rfl
  have hsub : b.location - a.location = ⟨0, 0, 0⟩ := by
    rw [h]; exact Vec3.sub_self _
  have hfrac : fractionCalc (M.apply p) a.location b.location
      = Except.error PyErr.zeroDivision := by
    simp only [fractionCalc, hsub, normalized_zero, Vec3.dot_zero_right]
    rw [if_pos (by norm_num : (0:ℝ) - 0 = 0)]
  have hin : inCell [a, b] (M.apply p) 0 := by
    intro j hj hne
    have hj2 : j < 2 := hj
    interval_cases j
    · exact absurd rfl hne
    · rw [hloc0, hloc1]
      unfold excludes
      rw [hsub, normalized_zero, Vec3.dot_zero_right, Vec3.dot_zero_right]
      norm_num
  have hraw : rawCoeff [a, b] (buildNeighbors d 2) (M.apply p) 0
      = Except.error PyErr.zeroDivision := by
    unfold rawCoeff
    rw [if_pos hin, buildNeighbors_two_zero, hloc0]
    simp only [boundaryProduct, hloc1, hfrac]
  unfold displacePoint
  rw [show List.range (List.length [a, b]) = [0, 1] from rfl]
  simp only [computeRawCoeffs, hraw]

/-- Witness for the amended C2 at two concrete coincident anchors. -/
theorem c2_coincident_anchors_zero_division_witness :
    coincAnchor.location = coincAnchor.location ∧
    displacePoint [coincAnchor, coincAnchor] (buildNeighbors (fun _ => []) 2)
      Affine3.idT ⟨5, 7, 9⟩ = Except.error PyErr.zeroDivision :=
  ⟨rfl, c2_coincident_anchors_zero_division coincAnchor coincAnchor
    Affine3.idT ⟨5, 7, 9⟩ (fun _ => []) rfl⟩

/-- C8 counterexample: with an empty anchor list the pipeline signals no
error at all; the point loop runs and writes an output for the point. -/
theorem c8_counterexample :
    runPipeline (fun _ => []) [] Affine3.idT [⟨1, 0, 0⟩]
      = Except.ok [⟨0, 0, 0⟩] := by
  unfold runPipeline
  have hd : displacePoint [] (buildNeighbors (fun _ => [])
      (List.length ([] : List Anchor))) Affine3.idT ⟨1, 0, 0⟩
      = Except.ok ⟨0, 0, 0⟩ := by
    unfold displacePoint
    rw [show List.range (List.length ([] : List Anchor)) = [] from rfl]
    simp only [computeRawCoeffs, blendSum, Affine3.inverted_idT,
      Affine3.idT_apply]
  simp only [processPoints, hd]

/-- C8 amended: with an empty anchor list the pipeline signals no
configuration error; it runs the point loop, every point gets an empty
influence vector with zero sum, and every point is written as the
working-space image of the world origin. -/
theorem c8_empty_anchor_list_runs (d : ℕ → List ℕ) (M : Affine3)
    (ps : List Vec3) :
    runPipeline d [] M ps
      = Except.ok (ps.map fun _ => M.inverted.apply ⟨0, 0, 0⟩) := by
  unfold runPipeline
  induction ps with
  | nil => simp [processPoints]
  | cons p ps ih =>
    have hd : displacePoint [] (buildNeighbors d
        (List.length ([] : List Anchor))) M p
        = Except.ok (M.inverted.apply ⟨0, 0, 0⟩) := by
      unfold displacePoint
      rw [show List.range (List.length ([] : List Anchor)) = [] from rfl]
      simp only [computeRawCoeffs, blendSum]
    simp only [processPoints, hd, ih, List.map_cons]

/-- C1: at a zero-sum influence configuration (an empty anchor list makes
every raw weight sum the empty sum 0) the code does not leave the point
unchanged: with the cloud world matrix a translation by (3,0,0) and the point
at (1,0,0), the point is overwritten with the working-space image of the
world origin, (-3,0,0). -/
theorem c1_zero_sum_collapses_to_origin :
    computeRawCoeffs [] (buildNeighbors (fun _ => []) 0)
      ((Affine3.translate ⟨3, 0, 0⟩).apply ⟨1, 0, 0⟩)
      (List.range (List.length ([] : List Anchor))) = Except.ok [] ∧
    ([] : List ℝ).sum = 0 ∧
    displacePoint [] (buildNeighbors (fun _ => []) 0)
      (Affine3.translate ⟨3, 0, 0⟩) ⟨1, 0, 0⟩ = Except.ok ⟨-3, 0, 0⟩ ∧
    (Affine3.translate ⟨3, 0, 0⟩).inverted.apply ⟨0, 0, 0⟩ = ⟨-3, 0, 0⟩ ∧
    (⟨-3, 0, 0⟩ : Vec3) ≠ ⟨1, 0, 0⟩ := by
  have happly : (Affine3.translate ⟨3, 0, 0⟩).inverted.apply ⟨0, 0, 0⟩
      = ⟨-3, 0, 0⟩ := by
    rw [Affine3.inverted_translate, Affine3.translate_apply, Vec3.neg_def,
      Vec3.add_def]
    norm_num
  refine ⟨rfl, rfl, ?_, happly, by norm_num [Vec3.mk.injEq]⟩
  unfold displacePoint
  rw [show List.range (List.length ([] : List Anchor)) = [] from rfl]
  simp only [computeRawCoeffs, blendSum, happly]

/-- A successful boundary product is nonnegative: every factor lies in the
unit interval. -/
theorem boundaryProduct_nonneg (A : List Anchor) (pw ci : Vec3) :
    ∀ (l : List ℕ) (w : ℝ), boundaryProduct A pw ci l = Except.ok w → 0 ≤ w := by
  intro l
  induction l with
  | nil =>
    intro w hw
    simp only [boundaryProduct, Except.ok.injEq] at hw
    rw [← hw]
    norm_num
  | cons j rest ih =>
    intro w hw
    simp only [boundaryProduct] at hw
    cases hfc : fractionCalc pw ci (anchorLoc A j) with
    | error e => simp only [hfc] at hw; exact (Except.noConfusion hw)
    | ok f =>
      simp only [hfc] at hw
      cases hbp : boundaryProduct A pw ci rest with
      | error e => simp only [hbp] at hw; exact (Except.noConfusion hw)
      | ok w2 =>
        simp only [hbp, Except.ok.injEq] at hw
        rw [← hw]
        have h1 : 0 ≤ 1 - smooth_function f := by
          have := smooth_le_one f
          linarith
        exact mul_nonneg h1 (ih w2 hbp)

/-- Every successfully computed raw coefficient is nonnegative. -/
theorem computeRawCoeffs_nonneg (A : List Anchor) (nb : ℕ → List ℕ)
    (pw : Vec3) :
    ∀ (l : List ℕ) (cs : List ℝ),
      computeRawCoeffs A nb pw l = Except.ok cs → ∀ c ∈ cs, 0 ≤ c := by
  intro l
  induction l with
  | nil =>
    intro cs hcs
    simp only [computeRawCoeffs, Except.ok.injEq] at hcs
    rw [← hcs]
    intro c hc
    exact absurd hc (List.not_mem_nil c)
  | cons i rest ih =>
    intro cs hcs
    simp only [computeRawCoeffs] at hcs
    cases hrc : rawCoeff A nb pw i with
    | error e => simp only [hrc] at hcs; exact (Except.noConfusion hcs)
    | ok c0 =>
      simp only [hrc] at hcs
      cases hrest : computeRawCoeffs A nb pw rest with
      | error e => simp only [hrest] at hcs; exact (Except.noConfusion hcs)
      | ok cs2 =>
        simp only [hrest, Except.ok.injEq] at hcs
        rw [← hcs]
        intro c hc
        rcases List.mem_cons.mp hc with h | h
        · subst h
          unfold rawCoeff at hrc
          by_cases hic : inCell A pw i
          · rw [if_pos hic] at hrc
            exact boundaryProduct_nonneg A pw (anchorLoc A i) (nb i) c hrc
          · rw [if_neg hic] at hrc
            simp only [Except.ok.injEq] at hrc
            exact hrc.le
        · exact ih cs2 hrest c h

/-- Distributing a sum over a division of every list element. -/
theorem list_sum_map_div (l : List ℝ) (s : ℝ) :
    (l.map fun c => c / s).sum = l.sum / s := by
  induction l with
  | nil => simp
  | cons a l ih => simp [ih, add_div]

/-- C4: the influence computation normalizes to a partition of unity.  Given
any successfully computed raw weight list, if some raw weight is nonzero the
normalized weights sum to exactly 1, and if all raw weights are zero the
normalization step leaves the list untouched (no division happens). -/
theorem c4_partition_of_unity (A : List Anchor) (nb : ℕ → List ℕ) (pw : Vec3)
    (raw : List ℝ)
    (hraw : computeRawCoeffs A nb pw (List.range A.length) = Except.ok raw) :
    ((∃ c ∈ raw, c ≠ 0) → (normalizeCoeffs raw).sum = 1) ∧
    ((∀ c ∈ raw, c = 0) → normalizeCoeffs raw = raw) := by
  have hnn : ∀ c ∈ raw, 0 ≤ c :=
    computeRawCoeffs_nonneg A nb pw (List.range A.length) raw hraw
  constructor
  · rintro ⟨c, hc, hcne⟩
    have hcpos : 0 < c := lt_of_le_of_ne (hnn c hc) (Ne.symm hcne)
    have hsum : 0 < raw.sum :=
      lt_of_lt_of_le hcpos (List.single_le_sum hnn c hc)
    unfold normalizeCoeffs
    rw [if_pos (ne_of_gt hsum), list_sum_map_div, div_self (ne_of_gt hsum)]
  · intro hz
    have hsum : raw.sum = 0 := List.sum_eq_zero hz
    unfold normalizeCoeffs
    rw [if_neg (by simp [hsum])]

/-- Witness for C4 on the two-anchor midpoint raw weights. -/
theorem c4_partition_of_unity_witness :
    (normalizeCoeffs [1 / 2, 1 / 2]).sum = 1 :=
  (c4_partition_of_unity twoAnchors twoNb ⟨1, 0, 0⟩ [1 / 2, 1 / 2]
    rawList_two_mid).1 ⟨1 / 2, List.mem_cons_self _ _, by norm_num⟩

/-- When every neighbor fraction is nonpositive, every softening factor is 1
and the boundary product is exactly 1. -/
theorem boundaryProduct_one (A : List Anchor) (pw ci : Vec3) :
    ∀ (l : List ℕ),
      (∀ j ∈ l, ∃ f,
        fractionCalc pw ci (anchorLoc A j) = Except.ok f ∧ f ≤ 0) →
      boundaryProduct A pw ci l = Except.ok 1 := by
  intro l
  induction l with
  | nil => intro _; rfl
  | cons j rest ih =>
    intro h
    obtain ⟨f, hf, hf0⟩ := h j (List.mem_cons_self j rest)
    have hr := ih fun k hk => h k (List.mem_cons_of_mem j hk)
    simp only [boundaryProduct, hf, hr, smooth_of_nonpos hf0]
    norm_num

/-- When the point is in exactly one cell and that cell has boundary product
1, the raw coefficient list is the indicator of that anchor index. -/
theorem computeRawCoeffs_indicator (A : List Anchor) (nb : ℕ → List ℕ)
    (pw : Vec3) (i : ℕ) (hin : inCell A pw i)
    (hbp : boundaryProduct A pw (anchorLoc A i) (nb i) = Except.ok 1)
    (hout : ∀ k, k < A.length → k ≠ i → ¬ inCell A pw k) :
    ∀ (l : List ℕ), (∀ k ∈ l, k < A.length) →
      computeRawCoeffs A nb pw l
        = Except.ok (l.map fun k => if k = i then (1:ℝ) else 0) := by
  intro l
  induction l with
  | nil => intro _; rfl
  | cons k rest ih =>
    intro hb
    have hk := hb k (List.mem_cons_self k rest)
    have hrc : rawCoeff A nb pw k
        = Except.ok (if k = i then (1:ℝ) else 0) := by
      by_cases hki : k = i
      · subst hki
        unfold rawCoeff
        rw [if_pos hin, hbp, if_pos rfl]
      · unfold rawCoeff
        rw [if_neg (hout k hk hki), if_neg hki]
    simp only [computeRawCoeffs, hrc,
      ih (fun j hj => hb j (List.mem_cons_of_mem k hj)), List.map_cons]

/-- Sum of the indicator image over a list avoiding the index. -/
theorem indicator_sum_zero (i : ℕ) :
    ∀ (l : List ℕ), i ∉ l →
      ((l.map fun k => if k = i then (1:ℝ) else 0).sum) = 0 := by
  intro l
  induction l with
  | nil => intro _; simp
  | cons k rest ih =>
    intro h
    simp only [List.map_cons, List.sum_cons]
    rw [if_neg (fun hki : k = i => h (hki ▸ List.mem_cons_self k rest)),
      ih (fun hm => h (List.mem_cons_of_mem k hm))]
    norm_num

/-- Sum of the indicator image over a duplicate-free list containing the
index. -/
theorem indicator_sum (i : ℕ) :
    ∀ (l : List ℕ), l.Nodup → i ∈ l →
      ((l.map fun k => if k = i then (1:ℝ) else 0).sum) = 1 := by
  intro l
  induction l with
  | nil => intro _ h; exact absurd h (List.not_mem_nil i)
  | cons k rest ih =>
    intro hnd hmem
    simp only [List.map_cons, List.sum_cons]
    by_cases hki : k = i
    · rw [if_pos hki]
      have hni : i ∉ rest := by
        rw [← hki]
        exact (List.nodup_cons.mp hnd).1
      rw [indicator_sum_zero i rest hni]
      norm_num
    · rw [if_neg hki]
      have hmem2 : i ∈ rest := by
        rcases List.mem_cons.mp hmem with h | h
        · exact absurd h.symm hki
        · exact h
      rw [ih (List.nodup_cons.mp hnd).2 hmem2]
      norm_num

/-- Normalization fixes the indicator list: its sum is already 1. -/
theorem normalize_indicator (i n : ℕ) (hi : i < n) :
    normalizeCoeffs ((List.range n).map fun k => if k = i then (1:ℝ) else 0)
      = (List.range n).map fun k => if k = i then (1:ℝ) else 0 := by
  have hsum :
      ((List.range n).map fun k => if k = i then (1:ℝ) else 0).sum = 1 :=
    indicator_sum i (List.range n) (List.nodup_range n)
      (List.mem_range.mpr hi)
  unfold normalizeCoeffs
  rw [hsum, if_pos (by norm_num : (1:ℝ) ≠ 0)]
  simp [div_one]

/-- Positional lookup into the indicator list. -/
theorem indicator_getD (i n k : ℕ) (hk : k < n) :
    ((List.range n).map fun j => if j = i then (1:ℝ) else 0).getD k 0
      = if k = i then (1:ℝ) else 0 := by
  rw [List.getD_eq_getElem?_getD, List.getElem?_map, List.getElem?_range hk]
  rfl

/-- The blended displacement over indices with zero coefficients is the zero
vector. -/
theorem blendSum_zero (A : List Anchor) (M : Affine3) (p : Vec3)
    (coeffs : List ℝ) :
    ∀ (l : List ℕ), (∀ k ∈ l, coeffs.getD k 0 = 0) →
      blendSum A M p coeffs l = ⟨0, 0, 0⟩ := by
  intro l
  induction l with
  | nil => intro _; rfl
  | cons k rest ih =>
    intro h
    simp only [blendSum, h k (List.mem_cons_self k rest),
      ih (fun j hj => h j (List.mem_cons_of_mem k hj))]
    rw [Vec3.zero_smul_eq, Vec3.add_zero_eq]

/-- The blended displacement with an indicator coefficient list collapses to
the single candidate of the distinguished index. -/
theorem blendSum_single (A : List Anchor) (M : Affine3) (p : Vec3)
    (coeffs : List ℝ) (i : ℕ) (h1 : coeffs.getD i 0 = 1) :
    ∀ (l : List ℕ), l.Nodup → i ∈ l →
      (∀ k ∈ l, k ≠ i → coeffs.getD k 0 = 0) →
      blendSum A M p coeffs l
        = (A.getD i default).handleMatrixWorld.apply
            ((A.getD i default).matrixWorld.inverted.apply (M.apply p)) := by
  intro l
  induction l with
  | nil => intro _ hmem _; exact absurd hmem (List.not_mem_nil i)
  | cons k rest ih =>
    intro hnd hmem hz
    by_cases hki : k = i
    · subst hki
      have hni : k ∉ rest := (List.nodup_cons.mp hnd).1
      have hrest0 : ∀ j ∈ rest, coeffs.getD j 0 = 0 := by
        intro j hj
        refine hz j (List.mem_cons_of_mem k hj) ?_
        intro hji
        exact hni (hji ▸ hj)
      simp only [blendSum]
      rw [h1, Vec3.one_smul_eq, blendSum_zero A M p coeffs rest hrest0,
        Vec3.add_zero_eq]
    · have hk0 : coeffs.getD k 0 = 0 := hz k (List.mem_cons_self k rest) hki
      have hmem2 : i ∈ rest := by
        rcases List.mem_cons.mp hmem with h | h
        · exact absurd h.symm hki
        · exact h
      simp only [blendSum]
      rw [hk0, Vec3.zero_smul_eq, Vec3.zero_add_eq]
      exact ih (List.nodup_cons.mp hnd).2 hmem2
        (fun j hj hji => hz j (List.mem_cons_of_mem k hj) hji)

/-- C5: for a query point strictly interior to exactly one anchor cell, with
every fraction at most 0 against that anchor neighbors, the raw and
normalized influence vectors are the indicator of that anchor, and the output
is the handle transform applied to the point expressed in that anchor local
frame (written back through the inverted cloud matrix). -/
theorem c5_single_cell_interior (A : List Anchor) (nb : ℕ → List ℕ)
    (M : Affine3) (p : Vec3) (i : ℕ) (hi : i < A.length)
    (hin : inCell A (M.apply p) i)
    (hfrac : ∀ j ∈ nb i, ∃ f,
      fractionCalc (M.apply p) (anchorLoc A i) (anchorLoc A j)
        = Except.ok f ∧ f ≤ 0)
    (hout : ∀ k, k < A.length → k ≠ i → ¬ inCell A (M.apply p) k) :
    computeRawCoeffs A nb (M.apply p) (List.range A.length)
      = Except.ok ((List.range A.length).map
          fun k => if k = i then (1:ℝ) else 0) ∧
    normalizeCoeffs ((List.range A.length).map
        fun k => if k = i then (1:ℝ) else 0)
      = ((List.range A.length).map fun k => if k = i then (1:ℝ) else 0) ∧
    displacePoint A nb M p
      = Except.ok (M.inverted.apply
          ((A.getD i default).handleMatrixWorld.apply
            ((A.getD i default).matrixWorld.inverted.apply (M.apply p)))) := by
  have hbp : boundaryProduct A (M.apply p) (anchorLoc A i) (nb i)
      = Except.ok 1 :=
    boundaryProduct_one A (M.apply p) (anchorLoc A i) (nb i) hfrac
  have hraw := computeRawCoeffs_indicator A nb (M.apply p) i hin hbp hout
    (List.range A.length) (fun k hk => List.mem_range.mp hk)
  have hnorm := normalize_indicator i A.length hi
  refine ⟨hraw, hnorm, ?_⟩
  have hblend : blendSum A M p
      (normalizeCoeffs ((List.range A.length).map
        fun k => if k = i then (1:ℝ) else 0))
      (List.range A.length)
      = (A.getD i default).handleMatrixWorld.apply
          ((A.getD i default).matrixWorld.inverted.apply (M.apply p)) := by
    rw [hnorm]
    refine blendSum_single A M p _ i ?_ (List.range A.length)
      (List.nodup_range A.length) (List.mem_range.mpr hi) ?_
    · exact (indicator_getD i A.length i hi).trans (if_pos rfl)
    · intro k hk hki
      exact (indicator_getD i A.length k (List.mem_range.mp hk)).trans
        (if_neg hki)
  unfold displacePoint
  rw [hraw]
  simp only [hblend]

/-- The interior point (-1,0,0) passes the membership test of the first
anchor. -/
theorem inCell_two_int_0 : inCell twoAnchors ⟨-1, 0, 0⟩ 0 := by
  intro j hj hne
  have hj2 : j < 2 := hj
  interval_cases j
  · exact absurd rfl hne
  · rw [anchorLoc_two_0, anchorLoc_two_1]
    unfold excludes
    rw [show (⟨2, 0, 0⟩ : Vec3) - ⟨0, 0, 0⟩ = ⟨2, 0, 0⟩ by
      rw [Vec3.sub_def]; norm_num, normalized_two_x]
    unfold Vec3.dot
    norm_num

/-- Fraction of the interior point against the boundary of the first
anchor: strictly negative. -/
theorem frac_two_int_0 :
    fractionCalc ⟨-1, 0, 0⟩ ⟨0, 0, 0⟩ ⟨2, 0, 0⟩ = Except.ok (-(1 / 2)) := by
  have hsub : (⟨2, 0, 0⟩ : Vec3) - ⟨0, 0, 0⟩ = ⟨2, 0, 0⟩ := by
    rw [Vec3.sub_def]; norm_num
  simp only [fractionCalc, hsub, normalized_two_x, Vec3.dot]
  norm_num

/-- The interior point fails the membership test of the second anchor. -/
theorem notInCell_two_int_1 : ¬ inCell twoAnchors ⟨-1, 0, 0⟩ 1 := by
  intro h
  have h0 := h 0 (show (0:ℕ) < twoAnchors.length by
    norm_num [twoAnchors]) (by norm_num)
  apply h0
  rw [anchorLoc_two_1, anchorLoc_two_0]
  unfold excludes
  rw [show (⟨0, 0, 0⟩ : Vec3) - ⟨2, 0, 0⟩ = ⟨-2, 0, 0⟩ by
    rw [Vec3.sub_def]; norm_num, normalized_neg_two_x]
  unfold Vec3.dot
  norm_num

/-- Witness for C5 at the interior point (-1,0,0) of the two-anchor
scenario. -/
theorem c5_single_cell_interior_witness :
    computeRawCoeffs twoAnchors twoNb (Affine3.idT.apply ⟨-1, 0, 0⟩)
      (List.range twoAnchors.length)
      = Except.ok ((List.range twoAnchors.length).map
          fun k => if k = 0 then (1:ℝ) else 0) ∧
    normalizeCoeffs ((List.range twoAnchors.length).map
        fun k => if k = 0 then (1:ℝ) else 0)
      = ((List.range twoAnchors.length).map
          fun k => if k = 0 then (1:ℝ) else 0) ∧
    displacePoint twoAnchors twoNb Affine3.idT ⟨-1, 0, 0⟩
      = Except.ok (Affine3.idT.inverted.apply
          ((twoAnchors.getD 0 default).handleMatrixWorld.apply
            ((twoAnchors.getD 0 default).matrixWorld.inverted.apply
              (Affine3.idT.apply ⟨-1, 0, 0⟩)))) := by
  refine c5_single_cell_interior twoAnchors twoNb Affine3.idT ⟨-1, 0, 0⟩ 0
    (show (0:ℕ) < twoAnchors.length by norm_num [twoAnchors]) ?_ ?_ ?_
  · rw [Affine3.idT_apply]
    exact inCell_two_int_0
  · intro j hj
    rw [show twoNb 0 = [1] from rfl, List.mem_singleton] at hj
    subst hj
    refine ⟨-(1 / 2), ?_, by norm_num⟩
    rw [Affine3.idT_apply, anchorLoc_two_0, anchorLoc_two_1]
    exact frac_two_int_0
  · intro k hk hkne
    have hk2 : k < 2 := hk
    interval_cases k
    · exact absurd rfl hkne
    · rw [Affine3.idT_apply]
      exact notInCell_two_int_1
